import Mathlib

/-!
Verification of the batched beam search decoder of eight_mile/tf/layers.py
(class BeamSearchBase together with its helpers masked_fill, gather_k,
update_lengths and no_length_penalty).

The embedding is shallow: batched tensors of shape B x K (batch, beam) are
total functions of the two indices, a vocabulary distribution is a function
of the token id, and float32 scores are modelled as rationals.  The step
callable of the decoder (the step oracle) is modelled as a function of the
step index and the full B x K array of paths, which subsumes the opaque
decoder state threaded through the source: the state is a function of the
call history, which the pair (step index, paths) determines for the runs
examined here.  tf.math.top_k fails when asked for more entries than the
ranked dimension holds, so the step returns an Option; on ties top_k returns
the lower index first, which the ranking relation keyRel reproduces.
-/

namespace MeadBeam

/-- Modelled from the spec: the special vocabulary ids live in the class
Offsets of eight_mile/utils.py, which is not among the provided sources; the
spec fixes PAD = 0, START (GO) = 1 and END (EOS) = 2. -/
def PAD : Nat := 0

/-- Modelled from the spec: the GO (start) token id, see PAD. -/
def GO : Nat := 1

/-- Modelled from the spec: the EOS (end) token id, see PAD. -/
def EOS : Nat := 2

/-- The very large negative fill value -1e8 written into the rows of
finished beams (line 2848 of layers.py). -/
def NEG : ℚ := -(10 ^ 8)

/-- masked_fill of layers.py: t * (1 - cast mask) + value * cast mask. -/
def masked_fill (t : ℚ) (mask : Bool) (value : ℚ) : ℚ :=
  t * (1 - (if mask then 1 else 0)) + value * (if mask then 1 else 0)

/-- masked_fill acting on an integer tensor entry (the lengths are int32). -/
def masked_fillN (t : Nat) (mask : Bool) (value : Nat) : Nat :=
  t * (1 - (if mask then 1 else 0)) + value * (if mask then 1 else 0)

/-- update_lengths of layers.py: an entry may be written only when it is
still zero and the corresponding eos flag is set; the write stores idx. -/
def update_lengths (lengths : Nat → Nat → Nat) (eoses : Nat → Nat → Bool) (idx : Nat) :
    Nat → Nat → Nat :=
  fun b k => masked_fillN (lengths b k) ((lengths b k == 0) && eoses b k) idx

/-- no_length_penalty of layers.py: the constant penalty 1. -/
def no_length_penalty : Nat → ℚ := fun _ => 1

/-- The fixed shape and policy of one search invocation: batch size B, beam
width K, vocabulary size V and the pluggable length penalty. -/
structure Config where
  B : Nat
  K : Nat
  V : Nat
  penalty : Nat → ℚ

/-- A step oracle: step index, current B x K paths, then batch index, beam
index and token id to the log probability of that token. -/
def Oracle : Type := Nat → (Nat → Nat → List Nat) → Nat → Nat → Nat → ℚ

/-- The per-beam bookkeeping of the driver loop: paths, running unpenalized
log probabilities, and lengths (zero meaning unfinished). -/
structure BeamState where
  paths : Nat → Nat → List Nat
  log_probs : Nat → Nat → ℚ
  lengths : Nat → Nat → Nat

/-- The loop entry state: every beam holds the single GO token, log
probability zero and length zero (lines 2820 to 2825 of layers.py). -/
def init_state : BeamState :=
  ⟨fun _ _ => [GO], fun _ _ => 0, fun _ _ => 0⟩

/-- The two masked_fill calls of lines 2848 and 2849: rows of finished beams
are first filled with NEG everywhere and then reset to 0 at the EOS column. -/
def masked_probs (st : BeamState) (probs : Nat → Nat → Nat → ℚ) : Nat → Nat → Nat → ℚ :=
  fun b k v =>
    masked_fill (masked_fill (probs b k v) (st.lengths b k != 0) NEG)
      ((st.lengths b k != 0) && (v == EOS)) 0

/-- Line 2850: candidate log probabilities, the running log probability of
the origin beam plus the masked step log probability, indexed by the flat
candidate index f with origin beam f / V and token f % V. -/
def cand_log_probs (cfg : Config) (st : BeamState) (probs : Nat → Nat → Nat → ℚ) :
    Nat → Nat → ℚ :=
  fun b f => st.log_probs b (f / cfg.V) + masked_probs st probs b (f / cfg.V) (f % cfg.V)

/-- Line 2852: the tentative length used for scoring, the frozen length for
finished beams and i + 1 otherwise. -/
def valid_lengths (st : BeamState) (i : Nat) : Nat → Nat → Nat :=
  fun b k => masked_fillN (st.lengths b k) (st.lengths b k == 0) (i + 1)

/-- The ranking scores handed to top_k: at step 0 only the distribution of
beam 0 (line 2860), later the candidate log probabilities divided by the
length penalty (line 2853). -/
def path_scores (cfg : Config) (st : BeamState) (probs : Nat → Nat → Nat → ℚ) (i : Nat) :
    Nat → Nat → ℚ :=
  fun b f =>
    if i = 0 then probs b 0 f
    else cand_log_probs cfg st probs b f / cfg.penalty (valid_lengths st i b (f / cfg.V))

/-- The flat B x (K * V) view of probs from which gather_k reads the new
running log probabilities (lines 2865 and 2866): at step 0 this is the raw
oracle output, later the candidate log probabilities. -/
def flat_probs (cfg : Config) (st : BeamState) (probs : Nat → Nat → Nat → ℚ) (i : Nat) :
    Nat → Nat → ℚ :=
  fun b f => if i = 0 then probs b (f / cfg.V) (f % cfg.V) else cand_log_probs cfg st probs b f

/-- The size of the ranked dimension handed to top_k: V at step 0 and K * V
afterwards. -/
def n_candidates (cfg : Config) (i : Nat) : Nat :=
  if i = 0 then cfg.V else cfg.K * cfg.V

/-- The ranking order realized by tf.math.top_k: higher score first, and on
equal scores the lower index first. -/
def keyRel (s : Nat → ℚ) (a b : Nat) : Prop :=
  s b < s a ∨ (s a = s b ∧ a ≤ b)

instance keyRelDec (s : Nat → ℚ) : DecidableRel (keyRel s) := fun a b =>
  decidable_of_iff (s b < s a ∨ (s a = s b ∧ a ≤ b)) Iff.rfl

/-- tf.math.top_k over a vector of n scores: the indices of the k best
entries in ranking order.  The caller must ensure k is at most n. -/
def top_k (n k : Nat) (s : Nat → ℚ) : List Nat :=
  (List.insertionSort (keyRel s) (List.range n)).take k

/-- Line 2863: the selected flat candidate indices of one batch row. -/
def best_idx (cfg : Config) (st : BeamState) (probs : Nat → Nat → Nat → ℚ) (i b : Nat) :
    List Nat :=
  top_k (n_candidates cfg i) cfg.K (path_scores cfg st probs i b)

/-- The j-th selected flat candidate index of row b. -/
def best_idx_at (cfg : Config) (st : BeamState) (probs : Nat → Nat → Nat → ℚ) (i b j : Nat) :
    Nat :=
  (best_idx cfg st probs i b).getD j 0

/-- Line 2869: the origin beam of the j-th selection. -/
def best_beams (cfg : Config) (st : BeamState) (probs : Nat → Nat → Nat → ℚ) (i b j : Nat) :
    Nat :=
  best_idx_at cfg st probs i b j / cfg.V

/-- Line 2870: the token id of the j-th selection. -/
def best_tokens (cfg : Config) (st : BeamState) (probs : Nat → Nat → Nat → ℚ) (i b j : Nat) :
    Nat :=
  best_idx_at cfg st probs i b j % cfg.V

/-- The top_k values (best_scores of line 2863). -/
def best_scores_at (cfg : Config) (st : BeamState) (probs : Nat → Nat → Nat → ℚ) (i b j : Nat) :
    ℚ :=
  path_scores cfg st probs i b (best_idx_at cfg st probs i b j)

/-- gather_k of layers.py applied as on line 2866: the new running log
probability is read from the flat probs view at the selected flat index. -/
def gathered_log_probs (cfg : Config) (st : BeamState) (probs : Nat → Nat → Nat → ℚ)
    (i b j : Nat) : ℚ :=
  flat_probs cfg st probs i b (best_idx_at cfg st probs i b j)

/-- One loop body (lines 2828 to 2896) given the oracle output: reorder the
paths, lengths and log probabilities by the selected origin beams, append
the selected tokens, and freeze the lengths of beams that just emitted
EOS at i + 1. -/
def step_next (cfg : Config) (probs : Nat → Nat → Nat → ℚ) (i : Nat) (st : BeamState) :
    BeamState :=
  let newPaths : Nat → Nat → List Nat := fun b j =>
    st.paths b (best_beams cfg st probs i b j) ++ [best_tokens cfg st probs i b j]
  let gLens : Nat → Nat → Nat := fun b j => st.lengths b (best_beams cfg st probs i b j)
  let eoses : Nat → Nat → Bool := fun b j => (newPaths b j).getLastD PAD == EOS
  ⟨newPaths, fun b j => gathered_log_probs cfg st probs i b j,
    update_lengths gLens eoses (i + 1)⟩

/-- One driver iteration: call the oracle, rank, select and update.  The
call fails (as tf.math.top_k does) when K exceeds the ranked dimension. -/
def search_step (cfg : Config) (oracle : Oracle) (i : Nat) (st : BeamState) :
    Option (BeamState × (Nat → Nat → ℚ)) :=
  let probs := oracle i st.paths
  if cfg.K ≤ n_candidates cfg i then
    some (step_next cfg probs i st, fun b j => best_scores_at cfg st probs i b j)
  else none

/-- Line 2897: the number of entries of the whole B x K lengths tensor that
are non-zero; the loop breaks when this count equals K. -/
def finished_count (cfg : Config) (lengths : Nat → Nat → Nat) : Nat :=
  ((List.range cfg.B).map fun b =>
    ((List.range cfg.K).filter fun k => lengths b k != 0).length).sum

/-- Outcome of the driver loop: a top_k failure, an early break carrying the
state and the best scores of the breaking step, or a full run of all
iterations. -/
inductive LoopRes where
  | err : LoopRes
  | broke : BeamState → (Nat → Nat → ℚ) → LoopRes
  | full : BeamState → LoopRes

/-- The driver loop (for i in range(mxlen - 1) with its break). -/
def run_loop (cfg : Config) (oracle : Oracle) : Nat → Nat → BeamState → LoopRes
  | 0, _, st => .full st
  | fuel + 1, i, st =>
    match search_step cfg oracle i st with
    | none => .err
    | some (st2, sc) =>
      if finished_count cfg st2.lengths = cfg.K then .broke st2 sc
      else run_loop cfg oracle fuel (i + 1) st2

/-- Forced finalization (lines 2899 to 2912): one extra oracle call of which
only the EOS column is read, masked to 0 for finished beams; an EOS token is
appended to every path and every remaining zero length is frozen to mxlen. -/
def finalize_state (_cfg : Config) (oracle : Oracle) (mxlen : Nat) (st : BeamState) :
    BeamState :=
  let probs := oracle (mxlen - 1) st.paths
  ⟨fun b k => st.paths b k ++ [EOS],
    fun b k => st.log_probs b k + masked_fill (probs b k EOS) (st.lengths b k != 0) 0,
    update_lengths st.lengths (fun _ _ => true) mxlen⟩

/-- Line 2913: the final scores of the forced finalization, the updated log
probabilities divided by the penalty of the updated lengths. -/
def finalize_scores (cfg : Config) (oracle : Oracle) (mxlen : Nat) (st : BeamState) :
    Nat → Nat → ℚ :=
  fun b k =>
    (finalize_state cfg oracle mxlen st).log_probs b k /
      cfg.penalty ((finalize_state cfg oracle mxlen st).lengths b k)

/-- The output triple of the search: per (batch, beam) the path with the GO
token sliced off, the length and the score. -/
structure SearchResult where
  paths : Nat → Nat → List Nat
  lengths : Nat → Nat → Nat
  scores : Nat → Nat → ℚ

/-- BeamSearchBase.__call__ : run the loop from the initial state; on an
early break return the state of the breaking step with its top_k scores,
otherwise run the forced finalization.  Either way the GO token is sliced
off every path (line 2916). -/
def beam_search (cfg : Config) (oracle : Oracle) (mxlen : Nat) : Option SearchResult :=
  match run_loop cfg oracle (mxlen - 1) 0 init_state with
  | .err => none
  | .broke st sc => some ⟨fun b k => (st.paths b k).drop 1, st.lengths, sc⟩
  | .full st =>
    some ⟨fun b k => ((finalize_state cfg oracle mxlen st).paths b k).drop 1,
      (finalize_state cfg oracle mxlen st).lengths,
      finalize_scores cfg oracle mxlen st⟩

/-- Lift a deterministic stateless per-path oracle (a function of a single
path) to a step oracle of the driver. -/
def oracleOf (g : List Nat → Nat → ℚ) : Oracle := fun _ paths b k v => g (paths b k) v

/-- Modelled from the spec: the greedy reference decoder of the greedy
equivalence property is not part of the sources; argmaxTok realizes the
spec words arg-max token over the vocabulary, with ties broken towards the
lowest index as the ranking primitive does. -/
def argmaxTok (V : Nat) (s : Nat → ℚ) : Nat :=
  (List.range V).foldl (fun acc v => if s acc < s v then v else acc) 0

/-- Modelled from the spec: the greedy decoding loop, appending the arg-max
token at each step, stopping with length i + 1 when EOS is selected at loop
index i, and appending a forced EOS with length mxlen when the step budget
(mxlen - 1 selections) is exhausted. -/
def greedyGo (g : List Nat → Nat → ℚ) (V : Nat) : Nat → Nat → List Nat → List Nat × Nat
  | 0, i, path => (path ++ [EOS], i + 1)
  | fuel + 1, i, path =>
    if argmaxTok V (g path) = EOS then (path ++ [argmaxTok V (g path)], i + 1)
    else greedyGo g V fuel (i + 1) (path ++ [argmaxTok V (g path)])

/-- Whether the greedy decoder selects EOS within the given number of
remaining steps. -/
def greedyEnds (g : List Nat → Nat → ℚ) (V : Nat) : Nat → List Nat → Bool
  | 0, _ => false
  | fuel + 1, path =>
    if argmaxTok V (g path) = EOS then true
    else greedyEnds g V fuel (path ++ [argmaxTok V (g path)])

/-- Modelled from the spec: greedy decoding from the GO token, returning
the produced sequence (GO stripped) and its length. -/
def greedyDecode (g : List Nat → Nat → ℚ) (V mxlen : Nat) : List Nat × Nat :=
  ((greedyGo g V (mxlen - 1) 0 [GO]).1.drop 1, (greedyGo g V (mxlen - 1) 0 [GO]).2)

/-- The single-batch single-beam configuration of the greedy equivalence
claim: B = 1, K = 1 and the default penalty. -/
def cfg1 (V : Nat) : Config := ⟨1, 1, V, no_length_penalty⟩

/-- A concrete fixture configuration used by witnesses: B = 1, K = 2,
V = 3, default penalty. -/
def wcfg : Config := ⟨1, 2, 3, no_length_penalty⟩

/-- A concrete fixture state used by witnesses: beam 0 finished at step 1,
beam 1 still live. -/
def wst : BeamState :=
  ⟨fun _ k => if k = 0 then [GO, EOS] else [GO, 0],
   fun _ k => if k = 0 then -1 else -2,
   fun _ k => if k = 0 then 1 else 0⟩

/-- A concrete fixture oracle output used by witnesses. -/
def wprobs : Nat → Nat → Nat → ℚ := fun _ _ _ => -1

/-- Constructor tag of a loop outcome: 0 for err, 1 for broke, 2 for full. -/
def lrCase : LoopRes → Nat
  | .err => 0
  | .broke _ _ => 1
  | .full _ => 2

/-- The beam state carried by a loop outcome. -/
def lrState : LoopRes → BeamState
  | .err => init_state
  | .broke st _ => st
  | .full st => st

end MeadBeam

namespace MeadBeam

/-! Basic computation lemmas for masked_fill. -/

theorem masked_fill_true (t value : ℚ) : masked_fill t true value = value := by
  simp [masked_fill]

theorem masked_fill_false (t value : ℚ) : masked_fill t false value = t := by
  simp [masked_fill]

theorem masked_fillN_true (t value : Nat) : masked_fillN t true value = value := by
  simp [masked_fillN]

theorem masked_fillN_false (t value : Nat) : masked_fillN t false value = t := by
  simp [masked_fillN]

/-! Helper lemmas about update_lengths and masked_probs. -/

theorem update_lengths_of_ne (lengths : Nat → Nat → Nat) (eoses : Nat → Nat → Bool)
    (idx b k : Nat) (h : lengths b k ≠ 0) :
    update_lengths lengths eoses idx b k = lengths b k := by
  have hb : (lengths b k == 0) = false := by simp [h]
  simp [update_lengths, hb, masked_fillN_false]

theorem update_lengths_of_eq (lengths : Nat → Nat → Nat) (eoses : Nat → Nat → Bool)
    (idx b k : Nat) (h : lengths b k = 0) :
    update_lengths lengths eoses idx b k = if eoses b k then idx else 0 := by
  cases he : eoses b k <;>
    simp [update_lengths, h, he, masked_fillN_true, masked_fillN_false]

theorem masked_probs_of_done_eos (st : BeamState) (probs : Nat → Nat → Nat → ℚ)
    (b k : Nat) (h : st.lengths b k ≠ 0) : masked_probs st probs b k EOS = 0 := by
  have hb : (st.lengths b k != 0) = true := by simp [h]
  simp [masked_probs, hb, masked_fill_true]

theorem masked_probs_of_done_ne (st : BeamState) (probs : Nat → Nat → Nat → ℚ)
    (b k v : Nat) (h : st.lengths b k ≠ 0) (hv : v ≠ EOS) :
    masked_probs st probs b k v = NEG := by
  have hb : (st.lengths b k != 0) = true := by simp [h]
  have hv2 : (v == EOS) = false := by simp [hv]
  simp [masked_probs, hb, hv2, masked_fill_true, masked_fill_false]

theorem masked_probs_of_live (st : BeamState) (probs : Nat → Nat → Nat → ℚ)
    (b k v : Nat) (h : st.lengths b k = 0) : masked_probs st probs b k v = probs b k v := by
  have hb : (st.lengths b k != 0) = false := by simp [h]
  simp [masked_probs, hb, masked_fill_false]

/-! Helper lemmas about top_k. -/

theorem length_top_k (n k : Nat) (s : Nat → ℚ) (h : k ≤ n) : (top_k n k s).length = k := by
  simp [top_k, List.length_take, List.length_insertionSort, List.length_range, h]

theorem mem_top_k_lt {n k : Nat} {s : Nat → ℚ} {f : Nat} (hf : f ∈ top_k n k s) : f < n := by
  have h1 : f ∈ List.insertionSort (keyRel s) (List.range n) := List.take_subset _ _ hf
  have h2 : f ∈ List.range n := (List.perm_insertionSort (keyRel s) (List.range n)).mem_iff.mp h1
  exact List.mem_range.mp h2

theorem nodup_top_k (n k : Nat) (s : Nat → ℚ) : (top_k n k s).Nodup := by
  have h1 : (List.insertionSort (keyRel s) (List.range n)).Nodup :=
    ((List.perm_insertionSort (keyRel s) (List.range n)).nodup_iff).mpr (List.nodup_range n)
  exact (List.take_sublist _ _).nodup h1

theorem getD_mem_of_lt {l : List Nat} {j d : Nat} (h : j < l.length) : l.getD j d ∈ l := by
  rw [List.getD_eq_getElem l d h]
  exact List.getElem_mem h

theorem best_idx_at_mem (cfg : Config) (st : BeamState) (probs : Nat → Nat → Nat → ℚ)
    (i b j : Nat) (hn : cfg.K ≤ n_candidates cfg i) (hj : j < cfg.K) :
    best_idx_at cfg st probs i b j ∈ best_idx cfg st probs i b := by
  apply getD_mem_of_lt
  rw [show (best_idx cfg st probs i b).length = cfg.K from
    length_top_k _ _ _ hn]
  exact hj

theorem best_idx_at_lt (cfg : Config) (st : BeamState) (probs : Nat → Nat → Nat → ℚ)
    (i b j : Nat) (hn : cfg.K ≤ n_candidates cfg i) (hj : j < cfg.K) :
    best_idx_at cfg st probs i b j < n_candidates cfg i :=
  mem_top_k_lt (best_idx_at_mem cfg st probs i b j hn hj)

/-! Order properties of the ranking relation. -/

theorem keyRel_total (s : Nat → ℚ) : ∀ a b, keyRel s a b ∨ keyRel s b a := by
  intro a b
  rcases lt_trichotomy (s a) (s b) with h | h | h
  · right; left; exact h
  · rcases Nat.le_total a b with hab | hba
    · left; right; exact ⟨h, hab⟩
    · right; right; exact ⟨h.symm, hba⟩
  · left; left; exact h

theorem keyRel_trans (s : Nat → ℚ) :
    ∀ a b c, keyRel s a b → keyRel s b c → keyRel s a c := by
  intro a b c h1 h2
  rcases h1 with h1 | ⟨e1, l1⟩ <;> rcases h2 with h2 | ⟨e2, l2⟩
  · left; exact h2.trans h1
  · left; rw [← e2]; exact h1
  · left; rw [e1]; exact h2
  · right; exact ⟨e1.trans e2, l1.trans l2⟩

theorem keyRel_antisymm (s : Nat → ℚ) :
    ∀ a b, keyRel s a b → keyRel s b a → a = b := by
  intro a b h1 h2
  rcases h1 with h1 | ⟨e1, l1⟩ <;> rcases h2 with h2 | ⟨e2, l2⟩
  · exact absurd h2 (lt_asymm h1)
  · exact absurd h1 (by rw [e2]; exact lt_irrefl _)
  · exact absurd h2 (by rw [e1]; exact lt_irrefl _)
  · exact Nat.le_antisymm l1 l2

theorem pairwise_insertionSort_keyRel (s : Nat → ℚ) (l : List Nat) :
    List.Pairwise (keyRel s) (List.insertionSort (keyRel s) l) := by
  haveI : IsTotal Nat (keyRel s) := ⟨keyRel_total s⟩
  haveI : IsTrans Nat (keyRel s) := ⟨keyRel_trans s⟩
  exact List.sorted_insertionSort (keyRel s) l

/-- Each of the K beam blocks of the flat candidate range contains at least
one index satisfying good, hence at least K in total. -/
theorem countP_range_mul (K V e : Nat) (he : e < V) (good : Nat → Bool)
    (hg : ∀ j, j < K → good (j * V + e) = true) :
    K ≤ (List.range (K * V)).countP good := by
  induction K with
  | zero => exact Nat.zero_le _
  | succ K ih =>
    have hsplit : (K + 1) * V = K * V + V := by ring
    rw [hsplit, List.range_add, List.countP_append]
    have h1 : K ≤ (List.range (K * V)).countP good :=
      ih fun j hj => hg j (Nat.lt_succ_of_lt hj)
    have h2 : 0 < ((List.range V).map (K * V + ·)).countP good := by
      refine List.countP_pos_iff.mpr ⟨K * V + e, ?_, ?_⟩
      · exact List.mem_map.mpr ⟨e, List.mem_range.mpr he, rfl⟩
      · exact hg K (Nat.lt_succ_self K)
    omega

/-- No candidate failing good is selected by top_k when at least k
candidates satisfy good and every good candidate strictly outranks every
bad one. -/
theorem top_k_good (n k : Nat) (s : Nat → ℚ) (good : Nat → Bool)
    (hcount : k ≤ (List.range n).countP good)
    (hsep : ∀ u m, u < n → m < n → good u = true → good m = false → s m < s u) :
    ∀ f ∈ top_k n k s, good f = true := by
  intro f hf
  by_contra hbadp
  have hbad : good f = false := by
    cases hgf : good f
    · rfl
    · exact absurd hgf hbadp
  have hperm : List.Perm (List.insertionSort (keyRel s) (List.range n)) (List.range n) :=
    List.perm_insertionSort _ _
  have hsort := pairwise_insertionSort_keyRel s (List.range n)
  have hf2 : f ∈ (List.insertionSort (keyRel s) (List.range n)).take k := hf
  have hsplit : List.insertionSort (keyRel s) (List.range n)
      = (List.insertionSort (keyRel s) (List.range n)).take k
        ++ (List.insertionSort (keyRel s) (List.range n)).drop k :=
    (List.take_append_drop k _).symm
  have hcross : ∀ a ∈ (List.insertionSort (keyRel s) (List.range n)).take k,
      ∀ c ∈ (List.insertionSort (keyRel s) (List.range n)).drop k, keyRel s a c := by
    have h1 := hsort
    rw [hsplit] at h1
    exact (List.pairwise_append.mp h1).2.2
  have hcL : k ≤ (List.insertionSort (keyRel s) (List.range n)).countP good := by
    rw [hperm.countP_eq]; exact hcount
  have hdrop : ∃ u ∈ (List.insertionSort (keyRel s) (List.range n)).drop k,
      good u = true := by
    by_contra hno
    push_neg at hno
    have hz : ((List.insertionSort (keyRel s) (List.range n)).drop k).countP good = 0 :=
      List.countP_eq_zero.mpr fun a ha => by simp [hno a ha]
    have hsum : (List.insertionSort (keyRel s) (List.range n)).countP good
        = ((List.insertionSort (keyRel s) (List.range n)).take k).countP good
          + ((List.insertionSort (keyRel s) (List.range n)).drop k).countP good := by
      conv_lhs => rw [hsplit]
      rw [List.countP_append]
    have hle : ((List.insertionSort (keyRel s) (List.range n)).take k).countP good
        ≤ ((List.insertionSort (keyRel s) (List.range n)).take k).length :=
      List.countP_le_length good
    have hlen : ((List.insertionSort (keyRel s) (List.range n)).take k).length ≤ k :=
      List.length_take_le k _
    have heq : ((List.insertionSort (keyRel s) (List.range n)).take k).countP good
        = ((List.insertionSort (keyRel s) (List.range n)).take k).length := by omega
    have hall := List.countP_eq_length.mp heq
    have := hall f hf2
    simp [hbad] at this
  obtain ⟨u, hu, hgu⟩ := hdrop
  have hrel := hcross f hf2 u hu
  have hfn : f < n := mem_top_k_lt hf
  have hun : u < n := by
    have h1 : u ∈ List.insertionSort (keyRel s) (List.range n) := List.mem_of_mem_drop hu
    exact List.mem_range.mp (hperm.mem_iff.mp h1)
  have hlt := hsep u f hun hfn hgu hbad
  rcases hrel with h1 | ⟨h2, _⟩
  · exact absurd h1 (not_lt.mpr hlt.le)
  · exact absurd h2 (ne_of_lt hlt)

/-- With the default penalty the ranking score of a later step is the
unpenalized candidate log probability. -/
theorem path_scores_pen_one (cfg : Config) (st : BeamState) (probs : Nat → Nat → Nat → ℚ)
    (i b f : Nat) (hi : i ≠ 0) (hpen : ∀ l, cfg.penalty l = 1) :
    path_scores cfg st probs i b f
      = st.log_probs b (f / cfg.V) + masked_probs st probs b (f / cfg.V) (f % cfg.V) := by
  simp [path_scores, hi, cand_log_probs, hpen]

/-! Lemmas about the arg-max fold and the top-1 selection, used for the
greedy equivalence refinement. -/

theorem argmax_fold_spec (s : Nat → ℚ) :
    ∀ (l : List Nat) (m : Nat), List.Pairwise (· < ·) l → (∀ a ∈ l, m ≤ a) →
      (List.foldl (fun acc v => if s acc < s v then v else acc) m l = m
        ∨ List.foldl (fun acc v => if s acc < s v then v else acc) m l ∈ l)
      ∧ ∀ x, x = m ∨ x ∈ l →
          keyRel s (List.foldl (fun acc v => if s acc < s v then v else acc) m l) x := by
  intro l
  induction l with
  | nil =>
    intro m _ _
    refine ⟨Or.inl rfl, ?_⟩
    intro x hx
    rcases hx with rfl | hx
    · right; exact ⟨rfl, Nat.le_refl x⟩
    · cases hx
  | cons a t ih =>
    intro m hpw hm
    have hpwt : List.Pairwise (· < ·) t := hpw.of_cons
    have hma : m ≤ a := hm a (List.mem_cons_self a t)
    have hacc_le : ∀ b2 ∈ t, (if s m < s a then a else m) ≤ b2 := by
      intro b2 hb2
      by_cases hc : s m < s a
      · simp only [if_pos hc]
        exact Nat.le_of_lt (List.rel_of_pairwise_cons hpw hb2)
      · simp only [if_neg hc]
        exact hm b2 (List.mem_cons_of_mem a hb2)
    obtain ⟨hmem, hbest⟩ := ih (if s m < s a then a else m) hpwt hacc_le
    have hfa_m : keyRel s (if s m < s a then a else m) m := by
      by_cases hc : s m < s a
      · simp only [if_pos hc]; left; exact hc
      · simp only [if_neg hc]; right; exact ⟨rfl, Nat.le_refl m⟩
    have hfa_a : keyRel s (if s m < s a then a else m) a := by
      by_cases hc : s m < s a
      · simp only [if_pos hc]; right; exact ⟨rfl, Nat.le_refl a⟩
      · simp only [if_neg hc]
        rcases lt_or_eq_of_le (not_lt.mp hc) with h | h
        · left; exact h
        · right; exact ⟨h.symm, hma⟩
    constructor
    · rcases hmem with he | he
      · by_cases hc : s m < s a
        · right
          rw [List.foldl_cons]
          rw [he]
          simp only [if_pos hc]
          exact List.mem_cons_self a t
        · left
          rw [List.foldl_cons, he]
          simp only [if_neg hc]
      · right
        rw [List.foldl_cons]
        exact List.mem_cons_of_mem a he
    · intro x hx
      have hres : keyRel s (List.foldl (fun acc v => if s acc < s v then v else acc)
          (if s m < s a then a else m) t) (if s m < s a then a else m) :=
        hbest _ (Or.inl rfl)
      rw [List.foldl_cons]
      rcases hx with rfl | hx
      · exact keyRel_trans s _ _ _ hres hfa_m
      · rcases List.mem_cons.mp hx with rfl | hx
        · exact keyRel_trans s _ _ _ hres hfa_a
        · exact hbest x (Or.inr hx)

theorem argmaxTok_lt (V : Nat) (s : Nat → ℚ) (hV : 1 ≤ V) : argmaxTok V s < V := by
  have h := (argmax_fold_spec s (List.range V) 0 (List.pairwise_lt_range V)
    (fun a _ => Nat.zero_le a)).1
  rcases h with he | he
  · rw [argmaxTok, he]; omega
  · exact List.mem_range.mp he

theorem argmaxTok_best (V : Nat) (s : Nat → ℚ) : ∀ v, v < V → keyRel s (argmaxTok V s) v := by
  intro v hv
  exact (argmax_fold_spec s (List.range V) 0 (List.pairwise_lt_range V)
    (fun a _ => Nat.zero_le a)).2 v (Or.inr (List.mem_range.mpr hv))

theorem top_k_one_eq_argmax (V : Nat) (s : Nat → ℚ) (hV : 1 ≤ V) :
    top_k V 1 s = [argmaxTok V s] := by
  have hlen : (List.insertionSort (keyRel s) (List.range V)).length = V := by
    rw [List.length_insertionSort, List.length_range]
  cases hL : List.insertionSort (keyRel s) (List.range V) with
  | nil => rw [hL] at hlen; simp at hlen; omega
  | cons h t =>
    have hsort := pairwise_insertionSort_keyRel s (List.range V)
    rw [hL] at hsort
    have hperm := List.perm_insertionSort (keyRel s) (List.range V)
    rw [hL] at hperm
    have hhV : h < V := List.mem_range.mp (hperm.subset (List.mem_cons_self h t))
    have hamem : argmaxTok V s ∈ h :: t :=
      hperm.mem_iff.mpr (List.mem_range.mpr (argmaxTok_lt V s hV))
    have heq : h = argmaxTok V s := by
      rcases List.mem_cons.mp hamem with he | he
      · exact he.symm
      · exact keyRel_antisymm s _ _ (List.rel_of_pairwise_cons hsort he)
          (argmaxTok_best V s h hhV)
    show (List.insertionSort (keyRel s) (List.range V)).take 1 = [argmaxTok V s]
    rw [hL, heq]
    rfl

/-! Congruence of the selection under pointwise equal and shifted scores. -/

theorem orderedInsert_congr (r r2 : Nat → Nat → Prop) [DecidableRel r] [DecidableRel r2]
    (a : Nat) :
    ∀ l : List Nat, (∀ b ∈ l, (r a b ↔ r2 a b)) →
      List.orderedInsert r a l = List.orderedInsert r2 a l := by
  intro l
  induction l with
  | nil => intro _; rfl
  | cons b t ih =>
    intro hiff
    show (if r a b then a :: b :: t else b :: List.orderedInsert r a t)
      = (if r2 a b then a :: b :: t else b :: List.orderedInsert r2 a t)
    by_cases hc : r a b
    · rw [if_pos hc, if_pos ((hiff b (List.mem_cons_self b t)).mp hc)]
    · rw [if_neg hc, if_neg (fun hc2 => hc ((hiff b (List.mem_cons_self b t)).mpr hc2)),
        ih fun b2 hb2 => hiff b2 (List.mem_cons_of_mem b hb2)]

theorem insertionSort_congr (r r2 : Nat → Nat → Prop) [DecidableRel r] [DecidableRel r2] :
    ∀ l : List Nat, (∀ a ∈ l, ∀ b ∈ l, (r a b ↔ r2 a b)) →
      List.insertionSort r l = List.insertionSort r2 l := by
  intro l
  induction l with
  | nil => intro _; rfl
  | cons a t ih =>
    intro hiff
    show List.orderedInsert r a (List.insertionSort r t)
      = List.orderedInsert r2 a (List.insertionSort r2 t)
    rw [ih fun x hx y hy =>
      hiff x (List.mem_cons_of_mem a hx) y (List.mem_cons_of_mem a hy)]
    apply orderedInsert_congr
    intro b hb
    have hbt : b ∈ t := (List.perm_insertionSort r2 t).subset hb
    exact hiff a (List.mem_cons_self a t) b (List.mem_cons_of_mem a hbt)

theorem top_k_congr (n k : Nat) (s s2 : Nat → ℚ) (h : ∀ f, f < n → s f = s2 f) :
    top_k n k s = top_k n k s2 := by
  show (List.insertionSort (keyRel s) (List.range n)).take k
    = (List.insertionSort (keyRel s2) (List.range n)).take k
  rw [insertionSort_congr (keyRel s) (keyRel s2) (List.range n) ?_]
  intro a ha b hb
  unfold keyRel
  rw [h a (List.mem_range.mp ha), h b (List.mem_range.mp hb)]

theorem top_k_shift (n k : Nat) (s : Nat → ℚ) (c : ℚ) :
    top_k n k (fun f => c + s f) = top_k n k s := by
  show (List.insertionSort (keyRel fun f => c + s f) (List.range n)).take k
    = (List.insertionSort (keyRel s) (List.range n)).take k
  rw [insertionSort_congr (keyRel fun f => c + s f) (keyRel s) (List.range n) ?_]
  intro a _ b _
  simp only [keyRel]
  rw [add_lt_add_iff_left, add_right_inj]

/-- For B = 1, K = 1 the finished count is 1 or 0 according to the single
length entry. -/
theorem finished_count_cfg1 (V : Nat) (lengths : Nat → Nat → Nat) :
    finished_count (cfg1 V) lengths = (if lengths 0 0 = 0 then 0 else 1) := by
  have hr : List.range 1 = [0] := rfl
  by_cases h0 : lengths 0 0 = 0
  · rw [if_pos h0]
    simp [finished_count, cfg1, hr, List.filter_cons, h0]
  · rw [if_neg h0]
    simp [finished_count, cfg1, hr, List.filter_cons, h0]

/-- Characterization of one driver step for B = 1, K = 1 with the default
penalty and a live beam: the selection is the arg-max token of the oracle
distribution of the current path, the path is extended by it, the log
probability grows by its step log probability, and the length freezes to
i + 1 exactly when it is EOS. -/
theorem step_one_char (g : List Nat → Nat → ℚ) (V : Nat) (hV : 1 ≤ V) (i : Nat)
    (st : BeamState) (hlen : st.lengths 0 0 = 0) (hL0 : i = 0 → st.log_probs 0 0 = 0) :
    search_step (cfg1 V) (oracleOf g) i st
      = some (step_next (cfg1 V) (oracleOf g i st.paths) i st,
          fun b j => best_scores_at (cfg1 V) st (oracleOf g i st.paths) i b j)
    ∧ best_idx (cfg1 V) st (oracleOf g i st.paths) i 0
        = [argmaxTok V (g (st.paths 0 0))]
    ∧ (step_next (cfg1 V) (oracleOf g i st.paths) i st).paths 0 0
        = st.paths 0 0 ++ [argmaxTok V (g (st.paths 0 0))]
    ∧ (step_next (cfg1 V) (oracleOf g i st.paths) i st).log_probs 0 0
        = st.log_probs 0 0 + g (st.paths 0 0) (argmaxTok V (g (st.paths 0 0)))
    ∧ (step_next (cfg1 V) (oracleOf g i st.paths) i st).lengths 0 0
        = (if argmaxTok V (g (st.paths 0 0)) = EOS then i + 1 else 0)
    ∧ finished_count (cfg1 V) (step_next (cfg1 V) (oracleOf g i st.paths) i st).lengths
        = (if argmaxTok V (g (st.paths 0 0)) = EOS then 1 else 0) := by
  have hn : (cfg1 V).K ≤ n_candidates (cfg1 V) i := by
    by_cases hi : i = 0
    · simpa [cfg1, n_candidates, hi] using hV
    · simpa [cfg1, n_candidates, hi] using hV
  have hbi : best_idx (cfg1 V) st (oracleOf g i st.paths) i 0
      = [argmaxTok V (g (st.paths 0 0))] := by
    by_cases hi : i = 0
    · subst hi
      show top_k (n_candidates (cfg1 V) 0) 1
          (path_scores (cfg1 V) st (oracleOf g 0 st.paths) 0 0) = _
      rw [show n_candidates (cfg1 V) 0 = V from rfl]
      rw [top_k_congr V 1 (path_scores (cfg1 V) st (oracleOf g 0 st.paths) 0 0)
        (fun f => g (st.paths 0 0) f) (fun f _ => rfl)]
      exact top_k_one_eq_argmax V _ hV
    · show top_k (n_candidates (cfg1 V) i) 1
          (path_scores (cfg1 V) st (oracleOf g i st.paths) i 0) = _
      rw [show n_candidates (cfg1 V) i = V by simp [cfg1, n_candidates, hi]]
      rw [top_k_congr V 1 _ (fun f => st.log_probs 0 0 + g (st.paths 0 0) f) ?_]
      · rw [top_k_shift V 1 (fun f => g (st.paths 0 0) f) (st.log_probs 0 0)]
        exact top_k_one_eq_argmax V _ hV
      · intro f hf
        rw [path_scores_pen_one (cfg1 V) st _ i 0 f hi (fun l => rfl)]
        rw [show f / (cfg1 V).V = 0 from Nat.div_eq_of_lt hf,
          show f % (cfg1 V).V = f from Nat.mod_eq_of_lt hf]
        rw [masked_probs_of_live st _ 0 0 f hlen]
        rfl
  have hat : best_idx_at (cfg1 V) st (oracleOf g i st.paths) i 0 0
      = argmaxTok V (g (st.paths 0 0)) := by
    rw [best_idx_at, hbi]
    rfl
  have hmlt : argmaxTok V (g (st.paths 0 0)) < V := argmaxTok_lt V _ hV
  have hbb : best_beams (cfg1 V) st (oracleOf g i st.paths) i 0 0 = 0 := by
    rw [best_beams, hat]
    exact Nat.div_eq_of_lt hmlt
  have hbt : best_tokens (cfg1 V) st (oracleOf g i st.paths) i 0 0
      = argmaxTok V (g (st.paths 0 0)) := by
    rw [best_tokens, hat]
    exact Nat.mod_eq_of_lt hmlt
  have hpaths : (step_next (cfg1 V) (oracleOf g i st.paths) i st).paths 0 0
      = st.paths 0 0 ++ [argmaxTok V (g (st.paths 0 0))] := by
    show st.paths 0 (best_beams (cfg1 V) st (oracleOf g i st.paths) i 0 0)
        ++ [best_tokens (cfg1 V) st (oracleOf g i st.paths) i 0 0] = _
    rw [hbb, hbt]
  have hlog : (step_next (cfg1 V) (oracleOf g i st.paths) i st).log_probs 0 0
      = st.log_probs 0 0 + g (st.paths 0 0) (argmaxTok V (g (st.paths 0 0))) := by
    show flat_probs (cfg1 V) st (oracleOf g i st.paths) i 0
        (best_idx_at (cfg1 V) st (oracleOf g i st.paths) i 0 0) = _
    rw [hat]
    by_cases hi : i = 0
    · subst hi
      rw [hL0 rfl, zero_add]
      show oracleOf g 0 st.paths 0 (argmaxTok V (g (st.paths 0 0)) / (cfg1 V).V)
          (argmaxTok V (g (st.paths 0 0)) % (cfg1 V).V) = _
      rw [show argmaxTok V (g (st.paths 0 0)) / (cfg1 V).V = 0 from Nat.div_eq_of_lt hmlt,
        show argmaxTok V (g (st.paths 0 0)) % (cfg1 V).V = argmaxTok V (g (st.paths 0 0))
          from Nat.mod_eq_of_lt hmlt]
      rfl
    · have h1 : flat_probs (cfg1 V) st (oracleOf g i st.paths) i 0
          (argmaxTok V (g (st.paths 0 0)))
          = cand_log_probs (cfg1 V) st (oracleOf g i st.paths) 0
              (argmaxTok V (g (st.paths 0 0))) := by
        simp [flat_probs, hi]
      rw [h1, cand_log_probs]
      rw [show argmaxTok V (g (st.paths 0 0)) / (cfg1 V).V = 0 from Nat.div_eq_of_lt hmlt,
        show argmaxTok V (g (st.paths 0 0)) % (cfg1 V).V = argmaxTok V (g (st.paths 0 0))
          from Nat.mod_eq_of_lt hmlt]
      rw [masked_probs_of_live st _ 0 0 _ hlen]
      rfl
  have hlens : (step_next (cfg1 V) (oracleOf g i st.paths) i st).lengths 0 0
      = (if argmaxTok V (g (st.paths 0 0)) = EOS then i + 1 else 0) := by
    have hg0 : st.lengths 0 (best_beams (cfg1 V) st (oracleOf g i st.paths) i 0 0) = 0 := by
      rw [hbb]
      exact hlen
    show update_lengths
        (fun b2 j2 => st.lengths b2 (best_beams (cfg1 V) st (oracleOf g i st.paths) i b2 j2))
        (fun b2 j2 => ((st.paths b2 (best_beams (cfg1 V) st (oracleOf g i st.paths) i b2 j2)
          ++ [best_tokens (cfg1 V) st (oracleOf g i st.paths) i b2 j2]).getLastD PAD == EOS))
        (i + 1) 0 0 = _
    rw [update_lengths_of_eq _ _ (i + 1) 0 0 hg0]
    have he : ((st.paths 0 (best_beams (cfg1 V) st (oracleOf g i st.paths) i 0 0)
        ++ [best_tokens (cfg1 V) st (oracleOf g i st.paths) i 0 0]).getLastD PAD == EOS)
        = (argmaxTok V (g (st.paths 0 0)) == EOS) := by
      rw [List.getLastD_concat, hbt]
    rw [he]
    by_cases hc : argmaxTok V (g (st.paths 0 0)) = EOS
    · simp [hc]
    · simp [hc]
  have hcount : finished_count (cfg1 V)
      (step_next (cfg1 V) (oracleOf g i st.paths) i st).lengths
      = (if argmaxTok V (g (st.paths 0 0)) = EOS then 1 else 0) := by
    rw [finished_count_cfg1 V _, hlens]
    by_cases hc : argmaxTok V (g (st.paths 0 0)) = EOS
    · simp [hc]
    · simp [hc]
  refine ⟨?_, hbi, hpaths, hlog, hlens, hcount⟩
  unfold search_step
  rw [if_pos hn]

/-- Correspondence between the driver loop at B = 1, K = 1 (default
penalty) and the greedy decoding loop: from a live single-beam state the
loop breaks exactly when greedy decoding emits EOS within the remaining
steps, carrying the same path and length; otherwise the loop runs to
completion holding the greedy path without its forced final EOS. -/
theorem loop_corr (g : List Nat → Nat → ℚ) (V : Nat) (hV : 1 ≤ V) :
    ∀ (fuel i : Nat) (st : BeamState),
      st.lengths 0 0 = 0 → (i = 0 → st.log_probs 0 0 = 0) →
      (greedyEnds g V fuel (st.paths 0 0) = true →
        lrCase (run_loop (cfg1 V) (oracleOf g) fuel i st) = 1
        ∧ (lrState (run_loop (cfg1 V) (oracleOf g) fuel i st)).paths 0 0
            = (greedyGo g V fuel i (st.paths 0 0)).1
        ∧ (lrState (run_loop (cfg1 V) (oracleOf g) fuel i st)).lengths 0 0
            = (greedyGo g V fuel i (st.paths 0 0)).2)
      ∧ (greedyEnds g V fuel (st.paths 0 0) = false →
        lrCase (run_loop (cfg1 V) (oracleOf g) fuel i st) = 2
        ∧ (lrState (run_loop (cfg1 V) (oracleOf g) fuel i st)).paths 0 0 ++ [EOS]
            = (greedyGo g V fuel i (st.paths 0 0)).1
        ∧ (lrState (run_loop (cfg1 V) (oracleOf g) fuel i st)).lengths 0 0 = 0
        ∧ (greedyGo g V fuel i (st.paths 0 0)).2 = i + fuel + 1) := by
  intro fuel
  induction fuel with
  | zero =>
    intro i st hlen hL0
    constructor
    · intro hend
      simp [greedyEnds] at hend
    · intro _
      exact ⟨rfl, rfl, hlen, rfl⟩
  | succ fuel ih =>
    intro i st hlen hL0
    obtain ⟨hstep, hbi, hpaths, hlog, hlens, hcount⟩ := step_one_char g V hV i st hlen hL0
    have hrun : run_loop (cfg1 V) (oracleOf g) (fuel + 1) i st
        = (if finished_count (cfg1 V)
              (step_next (cfg1 V) (oracleOf g i st.paths) i st).lengths = (cfg1 V).K
            then LoopRes.broke (step_next (cfg1 V) (oracleOf g i st.paths) i st)
              (fun b j => best_scores_at (cfg1 V) st (oracleOf g i st.paths) i b j)
            else run_loop (cfg1 V) (oracleOf g) fuel (i + 1)
              (step_next (cfg1 V) (oracleOf g i st.paths) i st)) := by
      simp only [run_loop]
      rw [hstep]
    by_cases hc : argmaxTok V (g (st.paths 0 0)) = EOS
    · have hcnt : finished_count (cfg1 V)
          (step_next (cfg1 V) (oracleOf g i st.paths) i st).lengths = (cfg1 V).K := by
        rw [hcount, if_pos hc]
        rfl
      have hrun2 : run_loop (cfg1 V) (oracleOf g) (fuel + 1) i st
          = LoopRes.broke (step_next (cfg1 V) (oracleOf g i st.paths) i st)
              (fun b j => best_scores_at (cfg1 V) st (oracleOf g i st.paths) i b j) := by
        rw [hrun, if_pos hcnt]
      have hgo : greedyGo g V (fuel + 1) i (st.paths 0 0)
          = (st.paths 0 0 ++ [argmaxTok V (g (st.paths 0 0))], i + 1) := by
        simp only [greedyGo]
        rw [if_pos hc]
      have hge : greedyEnds g V (fuel + 1) (st.paths 0 0) = true := by
        simp only [greedyEnds]
        rw [if_pos hc]
      constructor
      · intro _
        rw [hrun2, hgo]
        refine ⟨rfl, hpaths, ?_⟩
        show (step_next (cfg1 V) (oracleOf g i st.paths) i st).lengths 0 0 = i + 1
        rw [hlens, if_pos hc]
      · intro hend
        rw [hge] at hend
        cases hend
    · have hcnt : finished_count (cfg1 V)
          (step_next (cfg1 V) (oracleOf g i st.paths) i st).lengths = 0 := by
        rw [hcount, if_neg hc]
      have hrun2 : run_loop (cfg1 V) (oracleOf g) (fuel + 1) i st
          = run_loop (cfg1 V) (oracleOf g) fuel (i + 1)
              (step_next (cfg1 V) (oracleOf g i st.paths) i st) := by
        rw [hrun, if_neg ?_]
        rw [hcnt]
        show (0 : Nat) ≠ 1
        decide
      have hlen2 : (step_next (cfg1 V) (oracleOf g i st.paths) i st).lengths 0 0 = 0 := by
        rw [hlens, if_neg hc]
      have ihapp := ih (i + 1) (step_next (cfg1 V) (oracleOf g i st.paths) i st) hlen2
        (fun h => absurd h (Nat.succ_ne_zero i))
      rw [hpaths] at ihapp
      have hge : greedyEnds g V (fuel + 1) (st.paths 0 0)
          = greedyEnds g V fuel (st.paths 0 0 ++ [argmaxTok V (g (st.paths 0 0))]) := by
        simp only [greedyEnds]
        rw [if_neg hc]
      have hgo : greedyGo g V (fuel + 1) i (st.paths 0 0)
          = greedyGo g V fuel (i + 1) (st.paths 0 0 ++ [argmaxTok V (g (st.paths 0 0))]) := by
        simp only [greedyGo]
        rw [if_neg hc]
      rw [hge, hgo, hrun2]
      refine ⟨fun hend => ihapp.1 hend, fun hend => ?_⟩
      obtain ⟨h1, h2, h3, h4⟩ := ihapp.2 hend
      exact ⟨h1, h2, h3, h4.trans (by omega)⟩

/-- C8 (counterexample): with batch size 2 (K = 1, V = 3, mxlen = 4, no
penalty) and a deterministic oracle whose row 0 prefers EOS while row 1
always prefers token 0, the loop exit comparison of line 2897 stops the
whole search when row 0 finishes, so row 1 returns the truncated sequence
[0] with length 0, while greedy decoding of the row 1 distribution returns
[0, 0, 0, 2] with length 4: at K = 1 beam search is not greedy decoding on
every input. -/
theorem greedy_equiv_counterexample :
    (beam_search ⟨2, 1, 3, no_length_penalty⟩
        (fun _ _ b _ v => if b = 0 then (if v = 2 then 0 else -10) else (if v = 0 then 0 else -10))
        4).map (fun r => (r.paths 1 0, r.lengths 1 0)) = some ([0], 0)
    ∧ greedyDecode (fun _ v => if v = 0 then 0 else -10) 3 4 = ([0, 0, 0, 2], 4)
    ∧ (([0], 0) : List Nat × Nat) ≠ ([0, 0, 0, 2], 4) := by
  refine ⟨by decide, by decide, by decide⟩

/-- C8 (amended, batch size 1): for B = 1, K = 1 and the default no-op
penalty, for every deterministic stateless step oracle, every vocabulary
size at least 1 and every mxlen at least 1, the sequence and length
returned by beam search equal those of greedy decoding (arg-max selection
at every step with the same termination rules). -/
theorem greedy_equiv_batch_one (g : List Nat → Nat → ℚ) (V mxlen : Nat)
    (hV : 1 ≤ V) (hm : 1 ≤ mxlen) :
    (beam_search (cfg1 V) (oracleOf g) mxlen).map
      (fun r => (r.paths 0 0, r.lengths 0 0)) = some (greedyDecode g V mxlen) := by
  have hcorr := loop_corr g V hV (mxlen - 1) 0 init_state rfl (fun _ => rfl)
  have hip : init_state.paths 0 0 = [GO] := rfl
  rw [hip] at hcorr
  by_cases hend : greedyEnds g V (mxlen - 1) [GO] = true
  · obtain ⟨hc1, hp1, hl1⟩ := hcorr.1 hend
    cases hR : run_loop (cfg1 V) (oracleOf g) (mxlen - 1) 0 init_state with
    | err =>
      rw [hR] at hc1
      simp [lrCase] at hc1
    | broke st sc =>
      rw [hR] at hp1 hl1
      have hbs : beam_search (cfg1 V) (oracleOf g) mxlen
          = some ⟨fun b k => (st.paths b k).drop 1, st.lengths, sc⟩ := by
        rw [beam_search, hR]
      rw [hbs]
      show some ((st.paths 0 0).drop 1, st.lengths 0 0) = some (greedyDecode g V mxlen)
      have hp1x : st.paths 0 0 = (greedyGo g V (mxlen - 1) 0 [GO]).1 := hp1
      have hl1x : st.lengths 0 0 = (greedyGo g V (mxlen - 1) 0 [GO]).2 := hl1
      rw [hp1x, hl1x]
      rfl
    | full st =>
      rw [hR] at hc1
      simp [lrCase] at hc1
  · have hendf : greedyEnds g V (mxlen - 1) [GO] = false := by
      cases h2 : greedyEnds g V (mxlen - 1) [GO]
      · rfl
      · exact absurd h2 hend
    obtain ⟨hc2, hp2, hl2, hg2⟩ := hcorr.2 hendf
    cases hR : run_loop (cfg1 V) (oracleOf g) (mxlen - 1) 0 init_state with
    | err =>
      rw [hR] at hc2
      simp [lrCase] at hc2
    | broke st sc =>
      rw [hR] at hc2
      simp [lrCase] at hc2
    | full st =>
      rw [hR] at hp2 hl2
      have hbs : beam_search (cfg1 V) (oracleOf g) mxlen
          = some ⟨fun b k =>
                ((finalize_state (cfg1 V) (oracleOf g) mxlen st).paths b k).drop 1,
              (finalize_state (cfg1 V) (oracleOf g) mxlen st).lengths,
              finalize_scores (cfg1 V) (oracleOf g) mxlen st⟩ := by
        rw [beam_search, hR]
      rw [hbs]
      show some ((st.paths 0 0 ++ [EOS]).drop 1,
          update_lengths st.lengths (fun _ _ => true) mxlen 0 0)
        = some (greedyDecode g V mxlen)
      have hp2x : st.paths 0 0 ++ [EOS] = (greedyGo g V (mxlen - 1) 0 [GO]).1 := hp2
      have hl2x : st.lengths 0 0 = 0 := hl2
      have hulen : update_lengths st.lengths (fun _ _ => true) mxlen 0 0 = mxlen := by
        rw [update_lengths_of_eq st.lengths (fun _ _ => true) mxlen 0 0 hl2x]
        rfl
      have hG2 : (greedyGo g V (mxlen - 1) 0 [GO]).2 = mxlen := by
        rw [hg2]
        omega
      rw [hulen, hp2x]
      rw [show greedyDecode g V mxlen
          = ((greedyGo g V (mxlen - 1) 0 [GO]).1.drop 1,
             (greedyGo g V (mxlen - 1) 0 [GO]).2) from rfl, hG2]

/-- Witness for the amended C8 at a concrete oracle whose arg-max at the
first step is EOS. -/
theorem greedy_equiv_batch_one_witness :
    (beam_search (cfg1 3) (oracleOf (fun _ v => if v = 2 then 0 else -1)) 2).map
      (fun r => (r.paths 0 0, r.lengths 0 0))
      = some (greedyDecode (fun _ v => if v = 2 then 0 else -1) 3 2) :=
  greedy_equiv_batch_one (fun _ v => if v = 2 then 0 else -1) 3 2 (by decide) (by decide)

/-- C7: once a length entry is non-zero the value carried for that
hypothesis is never modified again: update_lengths (lines 2747 to 2768)
writes only to zero entries, hence the loop update of line 2896 preserves
every non-zero gathered length, and the forced finalization update of line
2912 preserves every non-zero length as well. -/
theorem frozen_length_updates :
    (∀ (lengths : Nat → Nat → Nat) (eoses : Nat → Nat → Bool) (idx b k : Nat),
        lengths b k ≠ 0 → update_lengths lengths eoses idx b k = lengths b k)
    ∧ (∀ (cfg : Config) (probs : Nat → Nat → Nat → ℚ) (i : Nat) (st : BeamState) (b j : Nat),
        st.lengths b (best_beams cfg st probs i b j) ≠ 0 →
        (step_next cfg probs i st).lengths b j = st.lengths b (best_beams cfg st probs i b j))
    ∧ (∀ (cfg : Config) (oracle : Oracle) (mxlen : Nat) (st : BeamState) (b k : Nat),
        st.lengths b k ≠ 0 → (finalize_state cfg oracle mxlen st).lengths b k = st.lengths b k) := by
  refine ⟨fun lengths eoses idx b k h => update_lengths_of_ne lengths eoses idx b k h, ?_, ?_⟩
  · intro cfg probs i st b j h
    have hstep : (step_next cfg probs i st).lengths b j
        = update_lengths (fun b2 j2 => st.lengths b2 (best_beams cfg st probs i b2 j2))
            (fun b2 j2 => ((st.paths b2 (best_beams cfg st probs i b2 j2) ++
              [best_tokens cfg st probs i b2 j2]).getLastD PAD == EOS)) (i + 1) b j := rfl
    rw [hstep]
    exact update_lengths_of_ne _ _ (i + 1) b j h
  · intro cfg oracle mxlen st b k h
    exact update_lengths_of_ne st.lengths (fun _ _ => true) mxlen b k h

/-- Witness for C7 at concrete inputs. -/
theorem frozen_length_updates_witness :
    update_lengths (fun _ _ => 5) (fun _ _ => true) 9 0 0 = 5
    ∧ (step_next ⟨1, 1, 2, no_length_penalty⟩ (fun _ _ _ => 0) 1
        ⟨fun _ _ => [GO], fun _ _ => 0, fun _ _ => 3⟩).lengths 0 0 = 3
    ∧ (finalize_state ⟨1, 1, 3, no_length_penalty⟩ (fun _ _ _ _ _ => 0) 7
        ⟨fun _ _ => [GO], fun _ _ => 0, fun _ _ => 4⟩).lengths 0 0 = 4 :=
  ⟨frozen_length_updates.1 _ _ 9 0 0 (by decide),
   by
    have h := frozen_length_updates.2.1 ⟨1, 1, 2, no_length_penalty⟩ (fun _ _ _ => 0) 1
      ⟨fun _ _ => [GO], fun _ _ => 0, fun _ _ => 3⟩ 0 0 (by decide)
    simpa using h,
   frozen_length_updates.2.2 _ _ 7 _ 0 0 (by decide)⟩

/-- C1 (code bug evidence): with B = 2, K = 1 the break condition of line
2897 compares the count of finished beams of the whole batch with K, so the
loop exits as soon as row 0 finishes even though row 1 is unfinished; the
returned lengths are (1, 0) and the path of row 1 was cut after one token
although mxlen = 4 allowed more steps. -/
theorem loop_exit_miscounts_batch :
    lrCase (run_loop ⟨2, 1, 3, no_length_penalty⟩
        (fun _ _ b _ v => if b = 0 then (if v = 2 then 0 else -10) else (if v = 0 then 0 else -10))
        3 0 init_state) = 1
    ∧ (beam_search ⟨2, 1, 3, no_length_penalty⟩
        (fun _ _ b _ v => if b = 0 then (if v = 2 then 0 else -10) else (if v = 0 then 0 else -10))
        4).map (fun r => (r.lengths 0 0, r.lengths 1 0, r.paths 1 0)) = some (1, 0, [0]) := by
  constructor
  · decide
  · decide

/-- C9 (counterexample): calling the search with mxlen = 0 (below the
documented minimum 1) does not report any error: no validation exists and
the call returns a result. -/
theorem config_error_counterexample :
    (beam_search ⟨1, 1, 3, no_length_penalty⟩ (fun _ _ _ _ _ => 0) 0).isSome = true := by
  rfl

/-- C9 (amended): neither K below 1 nor mxlen below 1 is detected: no
configuration check exists in BeamSearchBase.__init__ or at the start of
__call__, and the search returns a (degenerate) result instead of failing,
shown here for every invocation with mxlen = 0 and for every invocation
with K = 0 and mxlen = 1. -/
theorem config_not_validated :
    (∀ (cfg : Config) (oracle : Oracle), (beam_search cfg oracle 0).isSome = true)
    ∧ (∀ (B V : Nat) (pen : Nat → ℚ) (oracle : Oracle),
        (beam_search ⟨B, 0, V, pen⟩ oracle 1).isSome = true) :=
  ⟨fun _ _ => rfl, fun _ _ _ _ => rfl⟩

/-- C2: at every step i at least 1, a finished beam (length non-zero) has
its EOS column masked to 0 and every other vocabulary column masked to the
very large negative NEG; consequently, under the default penalty, the spec
token layout (EOS inside the vocabulary) and step values in the numerically
sane band above -1e7 and at most 0, every selected continuation of a
finished beam is the EOS token, the carried log probability of such a
selection is exactly the prior log probability of the beam, and the token
appended to the finished beam is EOS. -/
theorem finished_beam_masking (cfg : Config) (st : BeamState) (probs : Nat → Nat → Nat → ℚ)
    (i b k : Nat) (hi : 1 ≤ i) (hfin : st.lengths b k ≠ 0) (hEOS : EOS < cfg.V)
    (hpen : ∀ l, cfg.penalty l = 1)
    (hbp : ∀ k2, k2 < cfg.K → ∀ v, v < cfg.V → -(10 ^ 7) < probs b k2 v ∧ probs b k2 v ≤ 0)
    (hbl : ∀ k2, k2 < cfg.K → -(10 ^ 7) < st.log_probs b k2 ∧ st.log_probs b k2 ≤ 0) :
    masked_probs st probs b k EOS = 0
    ∧ (∀ v, v ≠ EOS → masked_probs st probs b k v = NEG)
    ∧ ∀ j, j < cfg.K → best_beams cfg st probs i b j = k →
        best_tokens cfg st probs i b j = EOS
        ∧ (step_next cfg probs i st).log_probs b j = st.log_probs b k
        ∧ (step_next cfg probs i st).paths b j = st.paths b k ++ [EOS] := by
  have hV0 : 0 < cfg.V := lt_of_le_of_lt (Nat.zero_le EOS) hEOS
  refine ⟨masked_probs_of_done_eos st probs b k hfin,
    fun v hv => masked_probs_of_done_ne st probs b k v hfin hv, ?_⟩
  intro j hj hbeam
  have hne : i ≠ 0 := Nat.one_le_iff_ne_zero.mp hi
  have hn : cfg.K ≤ n_candidates cfg i := by
    simpa [n_candidates, hne] using Nat.le_mul_of_pos_right cfg.K hV0
  have hfmem : best_idx_at cfg st probs i b j ∈ best_idx cfg st probs i b :=
    best_idx_at_mem cfg st probs i b j hn hj
  have hgood : ((st.lengths b (best_idx_at cfg st probs i b j / cfg.V) == 0)
      || (best_idx_at cfg st probs i b j % cfg.V == EOS)) = true := by
    refine top_k_good (n_candidates cfg i) cfg.K (path_scores cfg st probs i b)
      (fun x => (st.lengths b (x / cfg.V) == 0) || (x % cfg.V == EOS)) ?_ ?_ _ hfmem
    · have hc := countP_range_mul cfg.K cfg.V EOS hEOS
        (fun x => (st.lengths b (x / cfg.V) == 0) || (x % cfg.V == EOS)) ?_
      · simpa [n_candidates, hne] using hc
      · intro j2 hj2
        have hmod : (j2 * cfg.V + EOS) % cfg.V = EOS := by
          rw [Nat.add_comm, Nat.mul_comm, Nat.add_mul_mod_self_left]
          exact Nat.mod_eq_of_lt hEOS
        simp [hmod]
    · intro u m hu hm hgu hgm
      simp only [] at hgu hgm
      rw [show n_candidates cfg i = cfg.K * cfg.V by simp [n_candidates, hne]] at hu hm
      rw [path_scores_pen_one cfg st probs i b u hne hpen,
        path_scores_pen_one cfg st probs i b m hne hpen]
      have hudiv : u / cfg.V < cfg.K := (Nat.div_lt_iff_lt_mul hV0).mpr hu
      have hmdiv : m / cfg.V < cfg.K := (Nat.div_lt_iff_lt_mul hV0).mpr hm
      have humod : u % cfg.V < cfg.V := Nat.mod_lt u hV0
      have hLu := hbl (u / cfg.V) hudiv
      have hLm := hbl (m / cfg.V) hmdiv
      have hgm2 : st.lengths b (m / cfg.V) ≠ 0 ∧ m % cfg.V ≠ EOS := by
        constructor
        · intro h0; simp [h0] at hgm
        · intro h0; simp [h0] at hgm
      rw [masked_probs_of_done_ne st probs b _ _ hgm2.1 hgm2.2]
      have hNEG : NEG = -(10 ^ 8 : ℚ) := rfl
      by_cases h0 : st.lengths b (u / cfg.V) = 0
      · rw [masked_probs_of_live st probs b _ _ h0]
        have hp := hbp (u / cfg.V) hudiv (u % cfg.V) humod
        have hnum : (-(10 ^ 8) : ℚ) < -(10 ^ 7) + -(10 ^ 7) := by norm_num
        rw [hNEG]
        linarith [hLm.2, hLu.1, hp.1]
      · have hEOSu : u % cfg.V = EOS := by
          have h1 : (st.lengths b (u / cfg.V) == 0) = false := by simp [h0]
          rw [h1] at hgu
          simpa using hgu
        rw [hEOSu, masked_probs_of_done_eos st probs b _ h0]
        have hnum : (-(10 ^ 8) : ℚ) < -(10 ^ 7) + 0 := by norm_num
        rw [hNEG]
        linarith [hLm.2, hLu.1]
  have hbk : best_idx_at cfg st probs i b j / cfg.V = k := hbeam
  rw [hbk] at hgood
  have hlenb : (st.lengths b k == 0) = false := by simp [hfin]
  rw [hlenb] at hgood
  have htok : best_idx_at cfg st probs i b j % cfg.V = EOS := by simpa using hgood
  refine ⟨htok, ?_, ?_⟩
  · have h1 : (step_next cfg probs i st).log_probs b j
        = st.log_probs b (best_idx_at cfg st probs i b j / cfg.V)
          + masked_probs st probs b (best_idx_at cfg st probs i b j / cfg.V)
            (best_idx_at cfg st probs i b j % cfg.V) := by
      simp [step_next, gathered_log_probs, flat_probs, cand_log_probs, hne]
    rw [h1, hbk, htok, masked_probs_of_done_eos st probs b k hfin, add_zero]
  · show st.paths b (best_beams cfg st probs i b j)
        ++ [best_tokens cfg st probs i b j] = st.paths b k ++ [EOS]
    rw [hbeam, show best_tokens cfg st probs i b j = EOS from htok]

/-- Witness for C2 on the fixture: beam 0 of wst is finished. -/
theorem finished_beam_masking_witness :
    masked_probs wst wprobs 0 0 EOS = 0
    ∧ masked_probs wst wprobs 0 0 0 = NEG
    ∧ (∀ j, j < wcfg.K → best_beams wcfg wst wprobs 1 0 j = 0 →
        best_tokens wcfg wst wprobs 1 0 j = EOS
        ∧ (step_next wcfg wprobs 1 wst).log_probs 0 j = wst.log_probs 0 0
        ∧ (step_next wcfg wprobs 1 wst).paths 0 j = wst.paths 0 0 ++ [EOS]) :=
  ⟨(finished_beam_masking wcfg wst wprobs 1 0 0 (by decide) (by decide) (by decide)
      (fun _ => rfl) (by decide) (by decide)).1,
   (finished_beam_masking wcfg wst wprobs 1 0 0 (by decide) (by decide) (by decide)
      (fun _ => rfl) (by decide) (by decide)).2.1 0 (by decide),
   (finished_beam_masking wcfg wst wprobs 1 0 0 (by decide) (by decide) (by decide)
      (fun _ => rfl) (by decide) (by decide)).2.2⟩

/-- C3: when the loop runs all its iterations without breaking, the forced
finalization performs one more oracle call of which only the EOS column
enters the result, masked to zero for already finished beams (their log
probability is unchanged); an EOS token is appended (shown for every still
unfinished path), every remaining zero length is frozen to mxlen, and the
final score of each beam is its updated log probability divided by the
penalty of its final length. -/
theorem forced_finalization (cfg : Config) (oracle : Oracle) (mxlen : Nat) (st : BeamState)
    (h : run_loop cfg oracle (mxlen - 1) 0 init_state = .full st) :
    (beam_search cfg oracle mxlen).isSome = true
    ∧ ∀ b k,
        ((beam_search cfg oracle mxlen).map fun r => r.lengths b k)
          = some (if st.lengths b k = 0 then mxlen else st.lengths b k)
        ∧ (st.lengths b k = 0 →
            ((beam_search cfg oracle mxlen).map fun r => r.paths b k)
              = some ((st.paths b k ++ [EOS]).drop 1))
        ∧ (st.lengths b k ≠ 0 →
            (finalize_state cfg oracle mxlen st).log_probs b k = st.log_probs b k)
        ∧ (st.lengths b k = 0 →
            (finalize_state cfg oracle mxlen st).log_probs b k
              = st.log_probs b k + oracle (mxlen - 1) st.paths b k EOS)
        ∧ ((beam_search cfg oracle mxlen).map fun r => r.scores b k)
          = some ((finalize_state cfg oracle mxlen st).log_probs b k /
              cfg.penalty (if st.lengths b k = 0 then mxlen else st.lengths b k)) := by
  have hbs : beam_search cfg oracle mxlen
      = some ⟨fun b k => ((finalize_state cfg oracle mxlen st).paths b k).drop 1,
          (finalize_state cfg oracle mxlen st).lengths,
          finalize_scores cfg oracle mxlen st⟩ := by
    rw [beam_search, h]
  have hlen : ∀ b k, (finalize_state cfg oracle mxlen st).lengths b k
      = if st.lengths b k = 0 then mxlen else st.lengths b k := by
    intro b k
    by_cases h0 : st.lengths b k = 0
    · rw [if_pos h0]
      have h1 := update_lengths_of_eq st.lengths (fun _ _ => true) mxlen b k h0
      simpa using h1
    · rw [if_neg h0]
      exact update_lengths_of_ne st.lengths (fun _ _ => true) mxlen b k h0
  refine ⟨by rw [hbs]; rfl, ?_⟩
  intro b k
  refine ⟨?_, ?_, ?_, ?_, ?_⟩
  · rw [hbs]
    simpa using hlen b k
  · intro h0
    rw [hbs]
    rfl
  · intro h0
    have h1 : (st.lengths b k != 0) = true := by simp [h0]
    show st.log_probs b k
        + masked_fill (oracle (mxlen - 1) st.paths b k EOS) (st.lengths b k != 0) 0
      = st.log_probs b k
    rw [h1, masked_fill_true, add_zero]
  · intro h0
    have h1 : (st.lengths b k != 0) = false := by simp [h0]
    show st.log_probs b k
        + masked_fill (oracle (mxlen - 1) st.paths b k EOS) (st.lengths b k != 0) 0
      = st.log_probs b k + oracle (mxlen - 1) st.paths b k EOS
    rw [h1, masked_fill_false]
  · rw [hbs]
    show some (finalize_scores cfg oracle mxlen st b k) = _
    rw [finalize_scores, hlen b k]

/-- Witness for C3 with mxlen = 1, so the loop body never runs and the
finalization acts on the initial state. -/
theorem forced_finalization_witness :
    (beam_search ⟨1, 1, 3, no_length_penalty⟩ (fun _ _ _ _ _ => -1) 1).isSome = true
    ∧ ((beam_search ⟨1, 1, 3, no_length_penalty⟩ (fun _ _ _ _ _ => -1) 1).map
        fun r => r.lengths 0 0) = some 1 := by
  have hff := forced_finalization ⟨1, 1, 3, no_length_penalty⟩ (fun _ _ _ _ _ => -1) 1
    init_state rfl
  exact ⟨hff.1, by simpa using (hff.2 0 0).1⟩

/-- C5 (counterexample): Scenario A of the spec does not match the code.
With B = 1, K = 2, V = 4 and step-0 log probabilities (-inf, -inf, -5, 0)
for the start hypothesis (-inf modelled as -(10^9), which is order
equivalent here), the step 0 selection ranks the four scores of beam 0 and
returns two DISTINCT flat indices, so beam 0 selects token A = 3 and beam 1
selects token END = 2: the two beams cannot tie on token A. -/
theorem scenario_a_counterexample :
    (beam_search ⟨1, 2, 4, no_length_penalty⟩
        (fun _ _ _ _ v => if v = 3 then 0 else if v = 2 then -5 else -(10 ^ 9)) 2).map
      (fun r => ((r.paths 0 0).headD PAD, (r.paths 0 1).headD PAD)) = some (3, 2)
    ∧ ¬ ((beam_search ⟨1, 2, 4, no_length_penalty⟩
        (fun _ _ _ _ v => if v = 3 then 0 else if v = 2 then -5 else -(10 ^ 9)) 2).map
      (fun r => ((r.paths 0 0).headD PAD, (r.paths 0 1).headD PAD)) = some (3, 3)) := by
  constructor
  · decide
  · decide

/-- C4: at step 0 ranking is restricted to the distribution of beam 0 (the
path_scores are exactly the beam 0 probabilities and the ranked dimension is
V), and under the implicit precondition K at most V the selection succeeds
and returns K flat indices inside the block of beam 0 whose token ids are
pairwise distinct. -/
theorem step_zero_diversity (cfg : Config) (st : BeamState) (probs : Nat → Nat → Nat → ℚ)
    (oracle : Oracle) (b : Nat) (hKV : cfg.K ≤ cfg.V) :
    (search_step cfg oracle 0 st).isSome = true
    ∧ (∀ f, path_scores cfg st probs 0 b f = probs b 0 f)
    ∧ (best_idx cfg st probs 0 b).length = cfg.K
    ∧ (∀ f ∈ best_idx cfg st probs 0 b, f < cfg.V)
    ∧ (∀ j, j < cfg.K → best_beams cfg st probs 0 b j = 0)
    ∧ ((best_idx cfg st probs 0 b).map (fun f => f % cfg.V)).Nodup := by
  have hn : cfg.K ≤ n_candidates cfg 0 := by simpa [n_candidates] using hKV
  have hmem : ∀ f ∈ best_idx cfg st probs 0 b, f < cfg.V := by
    intro f hf
    have h1 := mem_top_k_lt hf
    simpa [n_candidates] using h1
  refine ⟨?_, ?_, length_top_k _ _ _ hn, hmem, ?_, ?_⟩
  · simp [search_step, hn]
  · intro f; simp [path_scores]
  · intro j hj
    exact Nat.div_eq_of_lt (best_idx_at_lt cfg st probs 0 b j hn
      hj |>.trans_le (by simp [n_candidates]))
  · have h1 : (best_idx cfg st probs 0 b).map (fun f => f % cfg.V)
        = (best_idx cfg st probs 0 b).map id := by
      apply List.map_congr_left
      intro f hf
      exact Nat.mod_eq_of_lt (hmem f hf)
    rw [h1, List.map_id]
    exact nodup_top_k _ _ _

/-- Witness for C4 at a concrete input. -/
theorem step_zero_diversity_witness :
    ((search_step ⟨1, 2, 4, no_length_penalty⟩ (fun _ _ _ _ _ => 0) 0 init_state).isSome = true)
    ∧ (best_idx ⟨1, 2, 4, no_length_penalty⟩ init_state (fun _ _ v => -(v : ℚ)) 0 0).length = 2
    ∧ ((best_idx ⟨1, 2, 4, no_length_penalty⟩ init_state (fun _ _ v => -(v : ℚ)) 0 0).map
        (fun f => f % 4)).Nodup :=
  ⟨(step_zero_diversity ⟨1, 2, 4, no_length_penalty⟩ init_state (fun _ _ v => -(v : ℚ))
      (fun _ _ _ _ _ => 0) 0 (by decide)).1,
   (step_zero_diversity ⟨1, 2, 4, no_length_penalty⟩ init_state (fun _ _ v => -(v : ℚ))
      (fun _ _ _ _ _ => 0) 0 (by decide)).2.2.1,
   (step_zero_diversity ⟨1, 2, 4, no_length_penalty⟩ init_state (fun _ _ v => -(v : ℚ))
      (fun _ _ _ _ _ => 0) 0 (by decide)).2.2.2.2.2⟩

/-- C10: the step 0 selection ranks only the V scores of beam 0, so under
the implicit precondition K at most V it succeeds and yields K flat indices
all in the block of beam 0 (flat index divided by V equals 0), while for K
greater than V the top_k call has no valid result and the step fails. -/
theorem step_zero_topk_precondition (cfg : Config) (st : BeamState)
    (probs : Nat → Nat → Nat → ℚ) (oracle : Oracle) (b : Nat) :
    (cfg.K ≤ cfg.V →
      (search_step cfg oracle 0 st).isSome = true
      ∧ (best_idx cfg st probs 0 b).length = cfg.K
      ∧ ∀ j, j < cfg.K → best_idx_at cfg st probs 0 b j / cfg.V = 0)
    ∧ (cfg.V < cfg.K → search_step cfg oracle 0 st = none) := by
  constructor
  · intro hKV
    have hn : cfg.K ≤ n_candidates cfg 0 := by simpa [n_candidates] using hKV
    refine ⟨by simp [search_step, hn], length_top_k _ _ _ hn, ?_⟩
    intro j hj
    exact Nat.div_eq_of_lt (best_idx_at_lt cfg st probs 0 b j hn
      hj |>.trans_le (by simp [n_candidates]))
  · intro hVK
    have hn : ¬ cfg.K ≤ n_candidates cfg 0 := by
      simpa [n_candidates] using Nat.not_le.mpr hVK
    simp [search_step, hn]

/-- Witness for C10 at concrete inputs for both branches. -/
theorem step_zero_topk_precondition_witness :
    ((search_step ⟨1, 2, 3, no_length_penalty⟩ (fun _ _ _ _ _ => 0) 0 init_state).isSome = true)
    ∧ search_step ⟨1, 5, 3, no_length_penalty⟩ (fun _ _ _ _ _ => 0) 0 init_state = none :=
  ⟨(step_zero_topk_precondition ⟨1, 2, 3, no_length_penalty⟩ init_state (fun _ _ _ => 0)
      (fun _ _ _ _ _ => 0) 0).1 (by decide) |>.1,
   (step_zero_topk_precondition ⟨1, 5, 3, no_length_penalty⟩ init_state (fun _ _ _ => 0)
      (fun _ _ _ _ _ => 0) 0).2 (by decide)⟩

/-- C6: the running log probability carried forward is gathered from the
flat probs view at the very flat candidate index the selector returned; at
every step at least 1 it equals the prior log probability of the origin beam
plus the masked step log probability of the selected token, and at step 0
(from the initial state, whose log probabilities are 0) the same formula
holds; the penalty of cfg is arbitrary and nowhere enters the carried
value. -/
theorem log_prob_unpenalized_gather (cfg : Config) (st : BeamState)
    (probs : Nat → Nat → Nat → ℚ) (i b j : Nat) :
    ((step_next cfg probs i st).log_probs b j
      = flat_probs cfg st probs i b (best_idx_at cfg st probs i b j))
    ∧ (1 ≤ i →
        (step_next cfg probs i st).log_probs b j
          = st.log_probs b (best_beams cfg st probs i b j)
            + masked_probs st probs b (best_beams cfg st probs i b j)
              (best_tokens cfg st probs i b j))
    ∧ ((step_next cfg probs 0 init_state).log_probs b j
        = init_state.log_probs b (best_beams cfg init_state probs 0 b j)
          + masked_probs init_state probs b (best_beams cfg init_state probs 0 b j)
            (best_tokens cfg init_state probs 0 b j)) := by
  refine ⟨rfl, ?_, ?_⟩
  · intro hi
    have hne : i ≠ 0 := Nat.one_le_iff_ne_zero.mp hi
    simp [step_next, gathered_log_probs, flat_probs, cand_log_probs, best_beams,
      best_tokens, hne]
  · have hlive : init_state.lengths b (best_beams cfg init_state probs 0 b j) = 0 := rfl
    rw [masked_probs_of_live init_state probs b _ _ hlive]
    show flat_probs cfg init_state probs 0 b (best_idx_at cfg init_state probs 0 b j)
      = init_state.log_probs b (best_beams cfg init_state probs 0 b j)
        + probs b (best_beams cfg init_state probs 0 b j)
          (best_tokens cfg init_state probs 0 b j)
    simp [flat_probs, init_state, best_beams, best_tokens]

/-- Witness for C6 at a concrete input with step index 1. -/
theorem log_prob_unpenalized_gather_witness :
    (step_next ⟨1, 2, 3, no_length_penalty⟩ (fun _ _ v => -(v : ℚ) - 1) 1
        ⟨fun _ _ => [GO, 0], fun _ _ => -1, fun _ _ => 0⟩).log_probs 0 0
      = (⟨fun _ _ => [GO, 0], fun _ _ => -1, fun _ _ => 0⟩ : BeamState).log_probs 0
          (best_beams ⟨1, 2, 3, no_length_penalty⟩
            ⟨fun _ _ => [GO, 0], fun _ _ => -1, fun _ _ => 0⟩ (fun _ _ v => -(v : ℚ) - 1) 1 0 0)
        + masked_probs ⟨fun _ _ => [GO, 0], fun _ _ => -1, fun _ _ => 0⟩
            (fun _ _ v => -(v : ℚ) - 1) 0
            (best_beams ⟨1, 2, 3, no_length_penalty⟩
              ⟨fun _ _ => [GO, 0], fun _ _ => -1, fun _ _ => 0⟩ (fun _ _ v => -(v : ℚ) - 1) 1 0 0)
            (best_tokens ⟨1, 2, 3, no_length_penalty⟩
              ⟨fun _ _ => [GO, 0], fun _ _ => -1, fun _ _ => 0⟩
              (fun _ _ v => -(v : ℚ) - 1) 1 0 0) :=
  (log_prob_unpenalized_gather ⟨1, 2, 3, no_length_penalty⟩
    ⟨fun _ _ => [GO, 0], fun _ _ => -1, fun _ _ => 0⟩
    (fun _ _ v => -(v : ℚ) - 1) 1 0 0).2.1 (by decide)

/-- C5 (amended): in Scenario A the step 0 selection does not fail, beam 0
selects token A = 3 and beam 1 selects the next best token END = 2; the
selected starting tokens are distinct rather than tied. -/
theorem scenario_a_amended :
    (beam_search ⟨1, 2, 4, no_length_penalty⟩
        (fun _ _ _ _ v => if v = 3 then 0 else if v = 2 then -5 else -(10 ^ 9)) 2).isSome = true
    ∧ (beam_search ⟨1, 2, 4, no_length_penalty⟩
        (fun _ _ _ _ v => if v = 3 then 0 else if v = 2 then -5 else -(10 ^ 9)) 2).map
      (fun r => ((r.paths 0 0).headD PAD, (r.paths 0 1).headD PAD)) = some (3, 2) := by
  constructor
  · decide
  · decide

end MeadBeam
